import Mathlib

/-!
Verification of the instruction-list → Structured Text translation engine
(`pdf_to_st.py`): rung segmentation (`split_rungs`), instruction parsing
(`_parse_instruction`), expression assembly (`rung_to_expression`), rung
translation (`rung_to_st`) and document translation (`convert_text_to_st`).

Python strings are modeled as lists of characters (`Str := List Char`).
Python's whitespace-sensitive primitives (`str.strip`, `str.split`,
`str.splitlines`, `str.lower`, `str.upper`) are modeled over ASCII text:
whitespace is `Char.isWhitespace` (space, tab, CR, LF), case mapping is
`Char.toLower` / `Char.toUpper`, and `splitlines` splits on `'\n'`
(a CR before the newline is removed later by stripping, as in the source,
where every line is stripped before classification).
-/

/-- A Python string, modeled as its list of characters. -/
abbrev Str := List Char

/-- Python `s.strip()`: remove leading and trailing whitespace. -/
def pyStrip (s : Str) : Str :=
  ((s.dropWhile Char.isWhitespace).reverse.dropWhile Char.isWhitespace).reverse

/-- Python `s.lower()` (ASCII). -/
def pyLower (s : Str) : Str := s.map Char.toLower

/-- Python `s.upper()` (ASCII). -/
def pyUpper (s : Str) : Str := s.map Char.toUpper

/-- Python `line.lower().startswith(("rung", "network"))`. -/
def isBoundaryLine (line : Str) : Bool :=
  "rung".data.isPrefixOf (pyLower line) || "network".data.isPrefixOf (pyLower line)

/-- Python `text.splitlines()` restricted to `'\n'` separators: the lines of
`text`, without a trailing empty line when `text` ends in a newline, and the
empty list for empty `text`. -/
def splitlines : Str → List Str
  | [] => []
  | c :: cs =>
    if c = '\n' then [] :: splitlines cs
    else
      match splitlines cs with
      | [] => [[c]]
      | l :: ls => (c :: l) :: ls

/-- The accumulation loop of `split_rungs`: `current` is the buffer of content
lines of the rung being accumulated; blank lines and boundary markers flush a
non-empty buffer; end of input flushes a non-empty buffer. -/
def splitRungsGo (current : List Str) : List Str → List (List Str)
  | [] => if current = [] then [] else [current]
  | raw :: rest =>
    if pyStrip raw = [] then
      (if current = [] then splitRungsGo [] rest
       else current :: splitRungsGo [] rest)
    else if isBoundaryLine (pyStrip raw) then
      (if current = [] then splitRungsGo [] rest
       else current :: splitRungsGo [] rest)
    else splitRungsGo (current ++ [pyStrip raw]) rest

/-- `split_rungs(text)`: split extracted text into rungs of instruction lines. -/
def split_rungs (text : Str) : List (List Str) :=
  splitRungsGo [] (splitlines text)

/-- `_parse_instruction(instr)`: split on the first run of whitespace into
`(opcode.upper(), operand.strip())`; missing parts are empty strings. -/
def parse_instruction (instr : Str) : Str × Str :=
  (pyUpper ((instr.dropWhile Char.isWhitespace).takeWhile (fun c => !c.isWhitespace)),
   pyStrip ((instr.dropWhile Char.isWhitespace).dropWhile (fun c => !c.isWhitespace)))

/-- `op in {"LD", "LDP", "LDN"}`. -/
abbrev isLdOp (op : Str) : Prop :=
  op = "LD".data ∨ op = "LDP".data ∨ op = "LDN".data

/-- `op in {"AND", "ANDP", "ANDN"}`. -/
abbrev isAndOp (op : Str) : Prop :=
  op = "AND".data ∨ op = "ANDP".data ∨ op = "ANDN".data

/-- `op in {"OR", "ORP", "ORN"}`. -/
abbrev isOrOp (op : Str) : Prop :=
  op = "OR".data ∨ op = "ORP".data ∨ op = "ORN".data

/-- `op in {"OUT", "SET", "RST", "OUTNOT"}`. -/
abbrev isCoilOp (op : Str) : Prop :=
  op = "OUT".data ∨ op = "SET".data ∨ op = "RST".data ∨ op = "OUTNOT".data

/-- The loop state of `rung_to_expression`: the fragment list `expr_parts`
and the optional `coil_assignment`. -/
abbrev RteState := List Str × Option (Str × Str)

/-- One iteration of the loop body of `rung_to_expression`. -/
def rteStep (st : RteState) (instr : Str) : RteState :=
  if isLdOp (parse_instruction instr).1 then
    (if (parse_instruction instr).1 = "LDN".data
     then ["NOT ".data ++ (parse_instruction instr).2]
     else [(parse_instruction instr).2], st.2)
  else if isAndOp (parse_instruction instr).1 then
    (st.1 ++ [if (parse_instruction instr).1 = "ANDN".data
              then "AND NOT ".data ++ (parse_instruction instr).2
              else "AND ".data ++ (parse_instruction instr).2], st.2)
  else if isOrOp (parse_instruction instr).1 then
    (st.1 ++ [if (parse_instruction instr).1 = "ORN".data
              then "OR NOT ".data ++ (parse_instruction instr).2
              else "OR ".data ++ (parse_instruction instr).2], st.2)
  else if isCoilOp (parse_instruction instr).1 then
    (st.1, some (parse_instruction instr))
  else st

/-- Python `sep.join(parts)`. -/
def joinWith (sep : Str) : List Str → Str
  | [] => []
  | [x] => x
  | x :: y :: xs => x ++ sep ++ joinWith sep (y :: xs)

/-- `rung_to_expression(rung)`: fold the loop body over the rung's lines and
join the fragments with single spaces. -/
def rung_to_expression (rung : List Str) : Str × Option (Str × Str) :=
  (joinWith " ".data (rung.foldl rteStep ([], none)).1,
   (rung.foldl rteStep ([], none)).2)

/-- `rung_to_st(rung, index)`. -/
def rung_to_st (rung : List Str) (index : Nat) : Str :=
  match rung_to_expression rung with
  | (_, none) =>
    "(* Rung ".data ++ (Nat.repr index).data ++ ": no coil found *)".data
  | (expr, some (opcode, coil)) =>
    "(* Rung ".data ++ (Nat.repr index).data ++ " *)".data ++ "\n".data ++
      (if opcode = "OUT".data then coil ++ " := ".data ++ expr ++ ";".data
       else if opcode = "OUTNOT".data then
         coil ++ " := NOT (".data ++ expr ++ ");".data
       else if opcode = "SET".data then
         "IF ".data ++ expr ++ " THEN ".data ++ coil ++ " := TRUE; END_IF;".data
       else if opcode = "RST".data then
         "IF ".data ++ expr ++ " THEN ".data ++ coil ++ " := FALSE; END_IF;".data
       else "(* Unsupported coil opcode ".data ++ opcode ++ " *)".data)

/-- The loop of `convert_text_to_st`: each rung contributes its ST block and an
empty separator line, with 1-based indices. -/
def convertGo (i : Nat) : List (List Str) → List Str
  | [] => []
  | r :: rs => rung_to_st r i :: ([] : Str) :: convertGo (i + 1) rs

/-- `convert_text_to_st(text)`. -/
def convert_text_to_st (text : Str) : Str :=
  joinWith "\n".data (convertGo 1 (split_rungs text))

/-- Variant of `rung_to_st` whose unsupported-coil-opcode fallback branch is
replaced by a sentinel: used to state that the fallback branch is unreachable
(replacing its output changes nothing). -/
def rung_to_st_no_fallback (rung : List Str) (index : Nat) : Str :=
  match rung_to_expression rung with
  | (_, none) =>
    "(* Rung ".data ++ (Nat.repr index).data ++ ": no coil found *)".data
  | (expr, some (opcode, coil)) =>
    "(* Rung ".data ++ (Nat.repr index).data ++ " *)".data ++ "\n".data ++
      (if opcode = "OUT".data then coil ++ " := ".data ++ expr ++ ";".data
       else if opcode = "OUTNOT".data then
         coil ++ " := NOT (".data ++ expr ++ ");".data
       else if opcode = "SET".data then
         "IF ".data ++ expr ++ " THEN ".data ++ coil ++ " := TRUE; END_IF;".data
       else if opcode = "RST".data then
         "IF ".data ++ expr ++ " THEN ".data ++ coil ++ " := FALSE; END_IF;".data
       else "UNREACHABLE".data)

/-- The ST blocks of a text, one per rung, with 1-based indices (the loop of
`convert_text_to_st` without the interleaved separator lines). -/
def blocksGo (i : Nat) : List (List Str) → List Str
  | [] => []
  | r :: rs => rung_to_st r i :: blocksGo (i + 1) rs

/-- The ST blocks of a document, in rung order. -/
def st_blocks (text : Str) : List Str :=
  blocksGo 1 (split_rungs text)

/-- An instruction line whose opcode is one of the four coil opcodes. -/
abbrev isCoilInstr (l : Str) : Prop := isCoilOp (parse_instruction l).1

/-- An instruction line whose opcode is one of the nine logic opcodes
(`LD`/`AND`/`OR` families). -/
abbrev isLogicInstr (l : Str) : Prop :=
  isLdOp (parse_instruction l).1 ∨ isAndOp (parse_instruction l).1 ∨
    isOrOp (parse_instruction l).1

/-- The recognized opcode vocabulary. -/
def knownOpcodes : List Str :=
  ["LD".data, "LDP".data, "LDN".data, "AND".data, "ANDP".data, "ANDN".data,
   "OR".data, "ORP".data, "ORN".data, "OUT".data, "OUTNOT".data, "SET".data,
   "RST".data]

/-- An opcode inside the recognized vocabulary. -/
abbrev isKnownOp (op : Str) : Prop := op ∈ knownOpcodes

/-- A raw input line that the segmenter classifies as content: its stripped
form is non-empty and is not a rung/network boundary marker. -/
abbrev isContentLine (raw : Str) : Prop :=
  pyStrip raw ≠ [] ∧ isBoundaryLine (pyStrip raw) = false

/-- Spec-side effect of one instruction on the `coil_assignment` component
only: a coil instruction overwrites it, every other line leaves it unchanged. -/
def coilStep (c : Option (Str × Str)) (instr : Str) : Option (Str × Str) :=
  if isCoilOp (parse_instruction instr).1 then some (parse_instruction instr)
  else c

/-- Spec-side effect of one instruction on the fragment list only, mirroring
the branches of the loop body of `rung_to_expression`. -/
def exprStep (frags : List Str) (instr : Str) : List Str :=
  if isLdOp (parse_instruction instr).1 then
    (if (parse_instruction instr).1 = "LDN".data
     then ["NOT ".data ++ (parse_instruction instr).2]
     else [(parse_instruction instr).2])
  else if isAndOp (parse_instruction instr).1 then
    frags ++ [if (parse_instruction instr).1 = "ANDN".data
              then "AND NOT ".data ++ (parse_instruction instr).2
              else "AND ".data ++ (parse_instruction instr).2]
  else if isOrOp (parse_instruction instr).1 then
    frags ++ [if (parse_instruction instr).1 = "ORN".data
              then "OR NOT ".data ++ (parse_instruction instr).2
              else "OR ".data ++ (parse_instruction instr).2]
  else frags

/-- Spec-side description of the retained coil assignment: the parse of the
last coil instruction of the rung, in line order, if any. -/
def lastCoilSpec : List Str → Option (Str × Str)
  | [] => none
  | l :: ls =>
    match lastCoilSpec ls with
    | some c => some c
    | none =>
      if isCoilInstr l then some (parse_instruction l) else none

lemma isLdOp_not_coil {op : Str} (h : isLdOp op) : ¬ isCoilOp op := by
  rcases h with h1 | h1 | h1 <;> subst h1 <;> decide

lemma isAndOp_not_coil {op : Str} (h : isAndOp op) : ¬ isCoilOp op := by
  rcases h with h1 | h1 | h1 <;> subst h1 <;> decide

lemma isOrOp_not_coil {op : Str} (h : isOrOp op) : ¬ isCoilOp op := by
  rcases h with h1 | h1 | h1 <;> subst h1 <;> decide

lemma isCoilOp_not_ld {op : Str} (h : isCoilOp op) : ¬ isLdOp op := by
  rcases h with h1 | h1 | h1 | h1 <;> subst h1 <;> decide

lemma isCoilOp_not_and {op : Str} (h : isCoilOp op) : ¬ isAndOp op := by
  rcases h with h1 | h1 | h1 | h1 <;> subst h1 <;> decide

lemma isCoilOp_not_or {op : Str} (h : isCoilOp op) : ¬ isOrOp op := by
  rcases h with h1 | h1 | h1 | h1 <;> subst h1 <;> decide

lemma rteStep_snd (st : RteState) (l : Str) :
    (rteStep st l).2 = coilStep st.2 l := by
  unfold rteStep coilStep
  by_cases h1 : isLdOp (parse_instruction l).1
  · simp [h1, isLdOp_not_coil h1]
  · by_cases h2 : isAndOp (parse_instruction l).1
    · simp [h1, h2, isAndOp_not_coil h2]
    · by_cases h3 : isOrOp (parse_instruction l).1
      · simp [h1, h2, h3, isOrOp_not_coil h3]
      · by_cases h4 : isCoilOp (parse_instruction l).1
        · simp [h1, h2, h3, h4]
        · simp [h1, h2, h3, h4]

lemma rteStep_fst (st : RteState) (l : Str) :
    (rteStep st l).1 = exprStep st.1 l := by
  unfold rteStep exprStep
  by_cases h1 : isLdOp (parse_instruction l).1
  · simp [h1]
  · by_cases h2 : isAndOp (parse_instruction l).1
    · simp [h1, h2]
    · by_cases h3 : isOrOp (parse_instruction l).1
      · simp [h1, h2, h3]
      · by_cases h4 : isCoilOp (parse_instruction l).1
        · simp [h1, h2, h3, h4]
        · simp [h1, h2, h3, h4]

lemma foldl_rteStep (ls : List Str) : ∀ st : RteState,
    ls.foldl rteStep st = (ls.foldl exprStep st.1, ls.foldl coilStep st.2) := by
  induction ls with
  | nil => intro st; rfl
  | cons l ls ih =>
    intro st
    rw [List.foldl_cons, List.foldl_cons, List.foldl_cons, ih,
      rteStep_fst, rteStep_snd]

lemma foldl_coilStep (ls : List Str) : ∀ acc : Option (Str × Str),
    ls.foldl coilStep acc =
      (match lastCoilSpec ls with | some c => some c | none => acc) := by
  induction ls with
  | nil => intro acc; rfl
  | cons l ls ih =>
    intro acc
    rw [List.foldl_cons, ih]
    cases h : lastCoilSpec ls
    · by_cases hc : isCoilInstr l <;> simp [lastCoilSpec, h, coilStep, hc]
    · simp [lastCoilSpec, h]

lemma exprStep_coil {l : Str} (h : isCoilInstr l) (a : List Str) :
    exprStep a l = a := by
  unfold exprStep
  rw [if_neg (fun hc => isLdOp_not_coil hc h),
    if_neg (fun hc => isAndOp_not_coil hc h),
    if_neg (fun hc => isOrOp_not_coil hc h)]

lemma foldl_exprStep_filter (ls : List Str) : ∀ a : List Str,
    (ls.filter (fun l => decide (¬ isCoilInstr l))).foldl exprStep a =
      ls.foldl exprStep a := by
  induction ls with
  | nil => intro a; rfl
  | cons l ls ih =>
    intro a
    by_cases hc : isCoilInstr l
    · rw [List.filter_cons_of_neg (by simp [hc]), ih, List.foldl_cons,
        exprStep_coil hc]
    · rw [List.filter_cons_of_pos (by simp [hc]), List.foldl_cons,
        List.foldl_cons, ih]

/-- C3: in a rung with several coil instructions, only the last coil
instruction (in line order) is retained and determines the emitted statement;
the expression is computed from the non-coil instructions alone, wherever the
coil instructions sit. -/
theorem C3_theorem : ∀ rung : List Str,
    (rung_to_expression rung).2 = lastCoilSpec rung ∧
    (rung_to_expression rung).1 =
      (rung_to_expression (rung.filter (fun l => decide (¬ isCoilInstr l)))).1 := by
  intro rung
  constructor
  · show (rung.foldl rteStep ([], none)).2 = _
    rw [foldl_rteStep, foldl_coilStep]
    cases lastCoilSpec rung <;> rfl
  · simp only [rung_to_expression, foldl_rteStep, foldl_exprStep_filter]

lemma rte_snd (rung : List Str) :
    (rung_to_expression rung).2 = lastCoilSpec rung := by
  show (rung.foldl rteStep ([], none)).2 = _
  rw [foldl_rteStep, foldl_coilStep]
  cases lastCoilSpec rung <;> rfl

lemma lastCoilSpec_none {rung : List Str} (h : ∀ l ∈ rung, ¬ isCoilInstr l) :
    lastCoilSpec rung = none := by
  induction rung with
  | nil => rfl
  | cons l ls ih =>
    have hl : ¬ isCoilInstr l := h l (List.mem_cons_self l ls)
    have hls := ih (fun x hx => h x (List.mem_cons_of_mem l hx))
    simp [lastCoilSpec, hls, hl]

/-- C4: a rung with no coil-family opcode translates to exactly the single
line `(* Rung {n}: no coil found *)`; the built expression is discarded. -/
theorem C4_theorem : ∀ (rung : List Str) (n : Nat),
    (∀ l ∈ rung, ¬ isCoilInstr l) →
    rung_to_st rung n =
      "(* Rung ".data ++ (Nat.repr n).data ++ ": no coil found *)".data := by
  intro rung n h
  have h2 := rte_snd rung
  rw [lastCoilSpec_none h] at h2
  unfold rung_to_st
  rcases he : rung_to_expression rung with ⟨e, c⟩
  rw [he] at h2
  cases c with
  | none => rfl
  | some v => simp at h2

/-- Witness for C4 at the concrete no-coil rung `["LD X0", "AND X1"]`. -/
theorem C4_witness : rung_to_st ["LD X0".data, "AND X1".data] 1
    = "(* Rung ".data ++ (Nat.repr 1).data ++ ": no coil found *)".data :=
  C4_theorem ["LD X0".data, "AND X1".data] 1 (by decide)

lemma lastCoilSpec_isCoil {rung : List Str} {op od : Str} :
    lastCoilSpec rung = some (op, od) → isCoilOp op := by
  induction rung with
  | nil => intro h; simp [lastCoilSpec] at h
  | cons l ls ih =>
    intro h
    unfold lastCoilSpec at h
    cases hc : lastCoilSpec ls
    · rw [hc] at h
      by_cases hcoil : isCoilInstr l
      · rw [if_pos hcoil] at h
        injection h with h1
        have hcoil2 : isCoilOp (parse_instruction l).1 := hcoil
        rw [h1] at hcoil2
        exact hcoil2
      · rw [if_neg hcoil] at h
        exact Option.noConfusion h
    · rw [hc] at h
      injection h with h1
      exact ih (h1 ▸ hc)

/-- C9: the coil assignment recorded by `rung_to_expression` always carries one
of the four coil opcodes, so the unsupported-coil-opcode fallback branch of
`rung_to_st` is unreachable: replacing that branch's output leaves `rung_to_st`
unchanged on every rung. -/
theorem C9_theorem :
    (∀ (rung : List Str) (op operand : Str),
       (rung_to_expression rung).2 = some (op, operand) → isCoilOp op) ∧
    (∀ (rung : List Str) (n : Nat),
       rung_to_st rung n = rung_to_st_no_fallback rung n) := by
  constructor
  · intro rung op operand h
    rw [rte_snd] at h
    exact lastCoilSpec_isCoil h
  · intro rung n
    rcases he : rung_to_expression rung with ⟨e, c⟩
    cases c with
    | none => unfold rung_to_st rung_to_st_no_fallback; rw [he]
    | some v =>
      rcases v with ⟨op, od⟩
      have hop : isCoilOp op := by
        have h2 := rte_snd rung
        rw [he] at h2
        exact lastCoilSpec_isCoil h2.symm
      unfold rung_to_st rung_to_st_no_fallback
      rw [he]
      rcases hop with h1 | h1 | h1 | h1 <;> subst h1 <;> rfl

/-- Witness for C9: the coil recorded for the concrete rung `["SET A"]` has one
of the four coil opcodes. -/
theorem C9_witness : isCoilOp "SET".data :=
  C9_theorem.1 ["SET A".data] "SET".data "A".data (by decide)

lemma exprStep_nonlogic {l : Str} (h : ¬ isLogicInstr l) (a : List Str) :
    exprStep a l = a := by
  unfold exprStep
  rw [if_neg (fun hc => h (Or.inl hc)),
    if_neg (fun hc => h (Or.inr (Or.inl hc))),
    if_neg (fun hc => h (Or.inr (Or.inr hc)))]

lemma foldl_exprStep_nologic {rung : List Str}
    (h : ∀ l ∈ rung, ¬ isLogicInstr l) : ∀ a : List Str,
    rung.foldl exprStep a = a := by
  induction rung with
  | nil => intro a; rfl
  | cons l ls ih =>
    intro a
    rw [List.foldl_cons, exprStep_nonlogic (h l (List.mem_cons_self l ls)),
      ih (fun x hx => h x (List.mem_cons_of_mem l hx))]

/-- C10: a rung with no `LD`/`AND`/`OR`-family instruction builds the empty
expression, and the statement is still emitted with the empty expression:
`["OUT Y0"]` yields `(* Rung 1 *)` followed by `Y0 := ;`. -/
theorem C10_theorem :
    (∀ rung : List Str, (∀ l ∈ rung, ¬ isLogicInstr l) →
       (rung_to_expression rung).1 = []) ∧
    rung_to_st ["OUT Y0".data] 1 = "(* Rung 1 *)\nY0 := ;".data := by
  constructor
  · intro rung h
    show joinWith " ".data (rung.foldl rteStep ([], none)).1 = []
    rw [foldl_rteStep, foldl_exprStep_nologic h]
    rfl
  · decide

/-- Witness for C10 at the concrete rung `["OUT Y0"]`. -/
theorem C10_witness : (rung_to_expression ["OUT Y0".data]).1 = [] :=
  C10_theorem.1 ["OUT Y0".data] (by decide)

lemma not_known_branches {op : Str} (h : ¬ isKnownOp op) :
    ¬ isLdOp op ∧ ¬ isAndOp op ∧ ¬ isOrOp op ∧ ¬ isCoilOp op := by
  refine ⟨fun hc => ?_, fun hc => ?_, fun hc => ?_, fun hc => ?_⟩
  · rcases hc with h1 | h1 | h1 <;> subst h1 <;> exact h (by decide)
  · rcases hc with h1 | h1 | h1 <;> subst h1 <;> exact h (by decide)
  · rcases hc with h1 | h1 | h1 <;> subst h1 <;> exact h (by decide)
  · rcases hc with h1 | h1 | h1 | h1 <;> subst h1 <;> exact h (by decide)

lemma rteStep_unknown {instr : Str}
    (h : ¬ isKnownOp (parse_instruction instr).1) (st : RteState) :
    rteStep st instr = st := by
  obtain ⟨h1, h2, h3, h4⟩ := not_known_branches h
  unfold rteStep
  rw [if_neg h1, if_neg h2, if_neg h3, if_neg h4]

/-- C5: an instruction whose (uppercased) opcode is outside the recognized
vocabulary has no effect on the built expression or the coil assignment, and
the concrete rung `["LD X0", "XYZ X1", "OUT Y0"]` yields expression `X0` and
statement `Y0 := X0;`. -/
theorem C5_theorem :
    (∀ (xs : List Str) (instr : Str) (ys : List Str),
       ¬ isKnownOp (parse_instruction instr).1 →
       rung_to_expression (xs ++ instr :: ys) = rung_to_expression (xs ++ ys)) ∧
    rung_to_expression ["LD X0".data, "XYZ X1".data, "OUT Y0".data]
      = ("X0".data, some ("OUT".data, "Y0".data)) ∧
    rung_to_st ["LD X0".data, "XYZ X1".data, "OUT Y0".data] 1
      = "(* Rung 1 *)\nY0 := X0;".data := by
  refine ⟨?_, by decide, by decide⟩
  intro xs instr ys h
  unfold rung_to_expression
  rw [List.foldl_append, List.foldl_append, List.foldl_cons, rteStep_unknown h]

/-- Witness for C5: dropping the unknown-opcode line `"FOO B"` does not change
the result of `rung_to_expression`. -/
theorem C5_witness :
    rung_to_expression ["LD A".data, "FOO B".data] =
      rung_to_expression ["LD A".data] :=
  C5_theorem.1 ["LD A".data] "FOO B".data [] (by decide)

/-- C1 as stated is false: the output for the three-line rung is not exactly
the two lines, because `convert_text_to_st` appends a separator entry after
every block, which leaves a trailing newline. -/
theorem C1_counterexample :
    ¬ (convert_text_to_st "LD X0\nAND X1\nOUT Y0".data
        = "(* Rung 1 *)\nY0 := X0 AND X1;".data) := by decide

/-- C1 (amended): for the input `"LD X0\nAND X1\nOUT Y0"`, the output is the
two lines `(* Rung 1 *)` and `Y0 := X0 AND X1;` followed by a trailing
newline. -/
theorem C1_theorem : convert_text_to_st "LD X0\nAND X1\nOUT Y0".data
    = "(* Rung 1 *)\nY0 := X0 AND X1;\n".data := by decide

lemma joinWith_cons_sep (b l : Str) (L : List Str) :
    joinWith "\n".data (b :: ([] : Str) :: l :: L) =
      b ++ "\n\n".data ++ joinWith "\n".data (l :: L) := by
  have d1 : ("\n".data : Str) = ['\n'] := rfl
  have d2 : ("\n\n".data : Str) = ['\n', '\n'] := rfl
  rw [d1, d2]
  show b ++ ['\n'] ++ (([] : Str) ++ ['\n'] ++ joinWith ['\n'] (l :: L)) = _
  simp [List.append_assoc]

lemma convertGo_join (rs : List (List Str)) : ∀ i : Nat,
    joinWith "\n".data (convertGo i rs) =
      if rs = [] then []
      else joinWith "\n\n".data (blocksGo i rs) ++ "\n".data := by
  induction rs with
  | nil => intro i; simp [convertGo, joinWith]
  | cons r rs ih =>
    intro i
    cases rs with
    | nil => simp [convertGo, blocksGo, joinWith]
    | cons r2 rs2 =>
      have hio := ih (i + 1)
      rw [if_neg (List.cons_ne_nil r2 rs2)] at hio
      rw [if_neg (List.cons_ne_nil r (r2 :: rs2))]
      have e1 : convertGo i (r :: r2 :: rs2) =
          rung_to_st r i :: ([] : Str) :: convertGo (i + 1) (r2 :: rs2) := rfl
      have e2 : convertGo (i + 1) (r2 :: rs2) =
          rung_to_st r2 (i + 1) :: ([] : Str) :: convertGo (i + 1 + 1) rs2 := rfl
      rw [e1, e2, joinWith_cons_sep, ← e2, hio]
      have e3 : blocksGo i (r :: r2 :: rs2) =
          rung_to_st r i :: rung_to_st r2 (i + 1) :: blocksGo (i + 1 + 1) rs2 := rfl
      have e4 : joinWith "\n\n".data
            (rung_to_st r i :: rung_to_st r2 (i + 1) :: blocksGo (i + 1 + 1) rs2) =
          rung_to_st r i ++ "\n\n".data ++
            joinWith "\n\n".data (rung_to_st r2 (i + 1) :: blocksGo (i + 1 + 1) rs2) := rfl
      have e5 : blocksGo (i + 1) (r2 :: rs2) =
          rung_to_st r2 (i + 1) :: blocksGo (i + 1 + 1) rs2 := rfl
      rw [e3, e4, e5]
      simp [List.append_assoc]

lemma splitRungsGo_nocontent : ∀ ls : List Str,
    (∀ raw ∈ ls, ¬ isContentLine raw) → ∀ current,
    splitRungsGo current ls = if current = [] then [] else [current] := by
  intro ls
  induction ls with
  | nil => intro h current; rfl
  | cons raw rest ih =>
    intro h current
    have hraw := h raw (List.mem_cons_self raw rest)
    have hrest := fun x hx => h x (List.mem_cons_of_mem raw hx)
    unfold splitRungsGo
    by_cases hs : pyStrip raw = []
    · rw [if_pos hs]
      by_cases hc : current = []
      · rw [if_pos hc, ih hrest []]; simp [hc]
      · rw [if_neg hc, ih hrest []]; simp [hc]
    · have hb : isBoundaryLine (pyStrip raw) = true := by
        rcases not_and_or.mp hraw with h1 | h1
        · exact absurd (not_not.mp h1) hs
        · simpa using h1
      rw [if_neg hs, if_pos hb]
      by_cases hc : current = []
      · rw [if_pos hc, ih hrest []]; simp [hc]
      · rw [if_neg hc, ih hrest []]; simp [hc]

/-- C2 as stated is false at a one-rung input: the output is not exactly the
blocks joined with one blank line, because a trailing newline follows the
final block. -/
theorem C2_counterexample :
    ¬ (convert_text_to_st "LD X0\nOUT Y0".data
        = joinWith "\n\n".data (st_blocks "LD X0\nOUT Y0".data)) := by decide

/-- C2 (amended): for every input text the output is the ST blocks of the
rungs, in rung order, joined with one blank line between consecutive blocks
and followed by a single trailing newline when at least one rung exists; for
input with no content lines the output is the empty string. -/
theorem C2_theorem :
    (∀ text : Str, convert_text_to_st text =
       (if split_rungs text = [] then []
        else joinWith "\n\n".data (st_blocks text) ++ "\n".data)) ∧
    (∀ text : Str, (∀ raw ∈ splitlines text, ¬ isContentLine raw) →
       convert_text_to_st text = []) := by
  constructor
  · intro text
    unfold convert_text_to_st st_blocks
    exact convertGo_join (split_rungs text) 1
  · intro text h
    have h0 : split_rungs text = [] := by
      unfold split_rungs
      rw [splitRungsGo_nocontent _ h []]
      rfl
    unfold convert_text_to_st
    rw [h0]
    rfl

/-- Witness for C2 at a no-content input (one boundary line, one blank). -/
theorem C2_witness : convert_text_to_st "Rung 1\n\n".data = [] :=
  C2_theorem.2 "Rung 1\n\n".data (by decide)

lemma splitRungsGo_ne_nil : ∀ (ls : List Str) (current r : List Str),
    r ∈ splitRungsGo current ls → r ≠ [] := by
  intro ls
  induction ls with
  | nil =>
    intro current r hr
    unfold splitRungsGo at hr
    by_cases hc : current = []
    · rw [if_pos hc] at hr
      exact absurd hr (List.not_mem_nil r)
    · rw [if_neg hc] at hr
      rw [List.mem_singleton] at hr
      subst hr
      exact hc
  | cons raw rest ih =>
    intro current r hr
    unfold splitRungsGo at hr
    by_cases hs : pyStrip raw = []
    · rw [if_pos hs] at hr
      by_cases hc : current = []
      · rw [if_pos hc] at hr
        exact ih [] r hr
      · rw [if_neg hc] at hr
        rcases List.mem_cons.mp hr with h1 | h1
        · subst h1; exact hc
        · exact ih [] r h1
    · rw [if_neg hs] at hr
      by_cases hb : isBoundaryLine (pyStrip raw) = true
      · rw [if_pos hb] at hr
        by_cases hc : current = []
        · rw [if_pos hc] at hr
          exact ih [] r hr
        · rw [if_neg hc] at hr
          rcases List.mem_cons.mp hr with h1 | h1
          · subst h1; exact hc
          · exact ih [] r h1
      · rw [if_neg hb] at hr
        exact ih (current ++ [pyStrip raw]) r hr

lemma splitRungsGo_noncontent_cons {b : Str} (h : ¬ isContentLine b)
    (current : List Str) (ls : List Str) :
    splitRungsGo current (b :: ls) =
      if current = [] then splitRungsGo [] ls
      else current :: splitRungsGo [] ls := by
  by_cases hs : pyStrip b = []
  · conv_lhs => rw [splitRungsGo]
    rw [if_pos hs]
  · have hb : isBoundaryLine (pyStrip b) = true := by
      rcases not_and_or.mp h with h1 | h1
      · exact absurd (not_not.mp h1) hs
      · simpa using h1
    conv_lhs => rw [splitRungsGo]
    rw [if_neg hs, if_pos hb]

lemma splitRungsGo_content_cons {b : Str} (h : isContentLine b)
    (current : List Str) (ls : List Str) :
    splitRungsGo current (b :: ls) = splitRungsGo (current ++ [pyStrip b]) ls := by
  conv_lhs => rw [splitRungsGo]
  rw [if_neg h.1, if_neg (by simp [h.2])]

lemma splitRungsGo_collapse {b b2 : Str} (hb : ¬ isContentLine b)
    (hb2 : ¬ isContentLine b2) (ys : List Str) : ∀ (xs : List Str) (current : List Str),
    splitRungsGo current (xs ++ b :: b2 :: ys) =
      splitRungsGo current (xs ++ b :: ys) := by
  intro xs
  induction xs with
  | nil =>
    intro current
    rw [List.nil_append, List.nil_append, splitRungsGo_noncontent_cons hb,
      splitRungsGo_noncontent_cons hb, splitRungsGo_noncontent_cons hb2]
    by_cases hc : current = [] <;> simp [hc]
  | cons x xs ih =>
    intro current
    by_cases hx : isContentLine x
    · rw [List.cons_append, List.cons_append, splitRungsGo_content_cons hx,
        splitRungsGo_content_cons hx]
      exact ih (current ++ [pyStrip x])
    · rw [List.cons_append, List.cons_append, splitRungsGo_noncontent_cons hx,
        splitRungsGo_noncontent_cons hx]
      by_cases hc : current = [] <;> simp [hc, ih []]

/-- C6: every rung emitted by the segmenter is non-empty; an input with no
content lines yields no rungs; and a run of blank/boundary lines between two
content lines collapses to a single rung break (inserting an extra
non-content line next to another changes nothing). -/
theorem C6_theorem :
    (∀ (text : Str) (r : List Str), r ∈ split_rungs text → r ≠ []) ∧
    (∀ text : Str, (∀ raw ∈ splitlines text, ¬ isContentLine raw) →
       split_rungs text = []) ∧
    (∀ (xs : List Str) (b b2 : Str) (ys : List Str),
       ¬ isContentLine b → ¬ isContentLine b2 →
       splitRungsGo [] (xs ++ b :: b2 :: ys) =
         splitRungsGo [] (xs ++ b :: ys)) := by
  refine ⟨?_, ?_, ?_⟩
  · intro text r hr
    exact splitRungsGo_ne_nil (splitlines text) [] r hr
  · intro text h
    unfold split_rungs
    rw [splitRungsGo_nocontent _ h []]
    rfl
  · intro xs b b2 ys hb hb2
    exact splitRungsGo_collapse hb hb2 ys xs []

/-- Witness for C6 at concrete inputs: a one-rung document has a non-empty
rung, a boundary-and-blank document has no rungs, and duplicating a blank
line between two content lines does not change the segmentation. -/
theorem C6_witness :
    (["LD X0".data] : List Str) ≠ [] ∧
    split_rungs "Rung 1\n\n".data = [] ∧
    splitRungsGo [] (["LD A".data] ++ "".data :: "".data :: ["LD B".data]) =
      splitRungsGo [] (["LD A".data] ++ "".data :: ["LD B".data]) :=
  ⟨C6_theorem.1 "LD X0".data ["LD X0".data] (by decide),
   C6_theorem.2.1 "Rung 1\n\n".data (by decide),
   C6_theorem.2.2 ["LD A".data] "".data "".data ["LD B".data]
     (by decide) (by decide)⟩

lemma dropWhile_self_idem (p : Char → Bool) : ∀ l : Str,
    (l.dropWhile p).dropWhile p = l.dropWhile p := by
  intro l
  induction l with
  | nil => rfl
  | cons x xs ih =>
    by_cases hx : p x = true
    · rw [List.dropWhile_cons_of_pos hx, ih]
    · have hx2 : ¬ p x = true := hx
      rw [List.dropWhile_cons_of_neg hx2, List.dropWhile_cons_of_neg hx2]

lemma mem_dropWhile {p : Char → Bool} {a : Char} : ∀ {l : Str},
    a ∈ l.dropWhile p → a ∈ l := by
  intro l
  induction l with
  | nil => intro h; exact h
  | cons x xs ih =>
    intro h
    by_cases hx : p x = true
    · rw [List.dropWhile_cons_of_pos hx] at h
      exact List.mem_cons_of_mem x (ih h)
    · rwa [List.dropWhile_cons_of_neg hx] at h

lemma getLast?_dropWhile (p : Char → Bool) : ∀ l : Str,
    l.dropWhile p ≠ [] → (l.dropWhile p).getLast? = l.getLast? := by
  intro l
  induction l with
  | nil => intro h; rfl
  | cons x xs ih =>
    intro h
    by_cases hx : p x = true
    · rw [List.dropWhile_cons_of_pos hx] at h ⊢
      have hxs : xs ≠ [] := by
        intro he
        subst he
        exact h rfl
      rcases List.exists_cons_of_ne_nil hxs with ⟨y, ys, hy⟩
      subst hy
      rw [ih h, List.getLast?_cons_cons]
    · rw [List.dropWhile_cons_of_neg hx]

lemma head_dropWhile_not (p : Char → Bool) : ∀ (l : Str) (a : Char),
    (l.dropWhile p).head? = some a → p a = false := by
  intro l
  induction l with
  | nil => intro a h; exact Option.noConfusion h
  | cons x xs ih =>
    intro a h
    by_cases hx : p x = true
    · rw [List.dropWhile_cons_of_pos hx] at h
      exact ih a h
    · rw [List.dropWhile_cons_of_neg hx] at h
      injection h with h1
      subst h1
      exact Bool.not_eq_true _ |>.mp hx

lemma dropWhile_eq_self_of_head {p : Char → Bool} {l : Str}
    (h : ∀ a, l.head? = some a → p a = false) : l.dropWhile p = l := by
  cases l with
  | nil => rfl
  | cons x xs =>
    have hx : p x = false := h x rfl
    exact List.dropWhile_cons_of_neg (by simp [hx])

lemma pyStrip_idem (s : Str) : pyStrip (pyStrip s) = pyStrip s := by
  have h1 : (pyStrip s).dropWhile Char.isWhitespace = pyStrip s := by
    apply dropWhile_eq_self_of_head
    intro c hc
    have hc2 : ((s.dropWhile Char.isWhitespace).reverse.dropWhile
        Char.isWhitespace).reverse.head? = some c := hc
    rw [List.head?_reverse] at hc2
    have hbne : (s.dropWhile Char.isWhitespace).reverse.dropWhile
        Char.isWhitespace ≠ [] := by
      intro he
      rw [he] at hc2
      exact Option.noConfusion hc2
    rw [getLast?_dropWhile _ _ hbne, List.getLast?_reverse] at hc2
    exact head_dropWhile_not _ s c hc2
  have h2 : (pyStrip s).reverse.dropWhile Char.isWhitespace =
      (pyStrip s).reverse := by
    have hrr : (pyStrip s).reverse =
        (s.dropWhile Char.isWhitespace).reverse.dropWhile Char.isWhitespace := by
      unfold pyStrip
      rw [List.reverse_reverse]
    rw [hrr, dropWhile_self_idem]
  calc pyStrip (pyStrip s)
      = (((pyStrip s).dropWhile Char.isWhitespace).reverse.dropWhile
          Char.isWhitespace).reverse := rfl
    _ = ((pyStrip s).reverse.dropWhile Char.isWhitespace).reverse := by rw [h1]
    _ = (pyStrip s).reverse.reverse := by rw [h2]
    _ = pyStrip s := List.reverse_reverse _

lemma mem_pyStrip {a : Char} {s : Str} (h : a ∈ pyStrip s) : a ∈ s := by
  unfold pyStrip at h
  rw [List.mem_reverse] at h
  have h2 := mem_dropWhile h
  rw [List.mem_reverse] at h2
  exact mem_dropWhile h2

lemma splitlines_no_newline : ∀ r : Str, '\n' ∉ r → r ≠ [] →
    splitlines r = [r] := by
  intro r
  induction r with
  | nil => intro _ h; exact absurd rfl h
  | cons c cs ih =>
    intro hn _
    have hc : ¬ c = '\n' := fun he => hn (he ▸ List.mem_cons_self c cs)
    cases cs with
    | nil =>
      conv_lhs => rw [splitlines]
      rw [if_neg hc, show splitlines ([] : Str) = [] from rfl]
    | cons y ys =>
      have h2 := ih (fun hm => hn (List.mem_cons_of_mem c hm))
        (List.cons_ne_nil y ys)
      conv_lhs => rw [splitlines]
      rw [if_neg hc, h2]

lemma splitlines_append_newline : ∀ xs ys : Str, '\n' ∉ xs →
    splitlines (xs ++ '\n' :: ys) = xs :: splitlines ys := by
  intro xs
  induction xs with
  | nil =>
    intro ys _
    rw [List.nil_append]
    conv_lhs => rw [splitlines]
    rw [if_pos rfl]
  | cons x xs ih =>
    intro ys hn
    have hx : ¬ x = '\n' := fun he => hn (he ▸ List.mem_cons_self x xs)
    have hxs : '\n' ∉ xs := fun hm => hn (List.mem_cons_of_mem x hm)
    rw [List.cons_append]
    conv_lhs => rw [splitlines]
    rw [if_neg hx, ih ys hxs]

lemma splitlines_joinWith : ∀ R : List Str, R ≠ [] →
    (∀ l ∈ R, '\n' ∉ l ∧ l ≠ []) →
    splitlines (joinWith "\n".data R) = R := by
  intro R
  induction R with
  | nil => intro h _; exact absurd rfl h
  | cons r rest ih =>
    intro _ h
    have hr := h r (List.mem_cons_self r rest)
    cases rest with
    | nil => exact splitlines_no_newline r hr.1 hr.2
    | cons r2 rest2 =>
      have hj : joinWith "\n".data (r :: r2 :: rest2) =
          r ++ '\n' :: joinWith "\n".data (r2 :: rest2) := by
        show r ++ "\n".data ++ joinWith "\n".data (r2 :: rest2) = _
        rw [List.append_assoc]
        rfl
      rw [hj, splitlines_append_newline r _ hr.1,
        ih (List.cons_ne_nil r2 rest2)
          (fun x hx => h x (List.mem_cons_of_mem r hx))]

lemma mem_splitlines_no_newline : ∀ (s : Str) (l : Str),
    l ∈ splitlines s → '\n' ∉ l := by
  intro s
  induction s with
  | nil => intro l h; exact absurd h (List.not_mem_nil l)
  | cons c cs ih =>
    intro l h
    unfold splitlines at h
    by_cases hc : c = '\n'
    · rw [if_pos hc] at h
      rcases List.mem_cons.mp h with h1 | h1
      · subst h1; exact List.not_mem_nil _
      · exact ih l h1
    · rw [if_neg hc] at h
      cases hcs : splitlines cs with
      | nil =>
        rw [hcs] at h
        rw [List.mem_singleton] at h
        subst h
        intro hm
        rcases List.mem_cons.mp hm with h1 | h1
        · exact hc h1.symm
        · exact absurd h1 (List.not_mem_nil _)
      | cons t ts =>
        rw [hcs] at h
        rcases List.mem_cons.mp h with h1 | h1
        · subst h1
          intro hm
          rcases List.mem_cons.mp hm with h2 | h2
          · exact hc h2.symm
          · exact ih t (hcs ▸ List.mem_cons_self t ts) h2
        · exact ih l (hcs ▸ List.mem_cons_of_mem t h1)

/-- The per-line invariant of every rung the segmenter emits: lines are
already stripped, non-empty, not boundary markers, and contain no newline. -/
def RungLineInv (l : Str) : Prop :=
  pyStrip l = l ∧ l ≠ [] ∧ isBoundaryLine l = false ∧ '\n' ∉ l

lemma splitRungsGo_line_inv : ∀ (ls : List Str) (current : List Str),
    (∀ l ∈ current, RungLineInv l) → (∀ raw ∈ ls, '\n' ∉ raw) →
    ∀ r ∈ splitRungsGo current ls, ∀ l ∈ r, RungLineInv l := by
  intro ls
  induction ls with
  | nil =>
    intro current hcur _ r hr l hl
    unfold splitRungsGo at hr
    by_cases hc : current = []
    · rw [if_pos hc] at hr
      exact absurd hr (List.not_mem_nil r)
    · rw [if_neg hc] at hr
      rw [List.mem_singleton] at hr
      subst hr
      exact hcur l hl
  | cons raw rest ih =>
    intro current hcur hls r hr l hl
    have hrest : ∀ x ∈ rest, '\n' ∉ x :=
      fun x hx => hls x (List.mem_cons_of_mem raw hx)
    unfold splitRungsGo at hr
    by_cases hs : pyStrip raw = []
    · rw [if_pos hs] at hr
      by_cases hc : current = []
      · rw [if_pos hc] at hr
        exact ih [] (by simp) hrest r hr l hl
      · rw [if_neg hc] at hr
        rcases List.mem_cons.mp hr with h1 | h1
        · subst h1; exact hcur l hl
        · exact ih [] (by simp) hrest r h1 l hl
    · rw [if_neg hs] at hr
      by_cases hb : isBoundaryLine (pyStrip raw) = true
      · rw [if_pos hb] at hr
        by_cases hc : current = []
        · rw [if_pos hc] at hr
          exact ih [] (by simp) hrest r hr l hl
        · rw [if_neg hc] at hr
          rcases List.mem_cons.mp hr with h1 | h1
          · subst h1; exact hcur l hl
          · exact ih [] (by simp) hrest r h1 l hl
      · rw [if_neg hb] at hr
        have hnew : RungLineInv (pyStrip raw) := by
          refine ⟨pyStrip_idem raw, hs, ?_, ?_⟩
          · exact Bool.not_eq_true _ |>.mp hb
          · exact fun hm => hls raw (List.mem_cons_self raw rest) (mem_pyStrip hm)
        have hcur2 : ∀ x ∈ current ++ [pyStrip raw], RungLineInv x := by
          intro x hx
          rcases List.mem_append.mp hx with h1 | h1
          · exact hcur x h1
          · rw [List.mem_singleton] at h1
            subst h1
            exact hnew
        exact ih (current ++ [pyStrip raw]) hcur2 hrest r hr l hl

lemma split_rungs_line_inv {text : Str} {r : List Str}
    (hr : r ∈ split_rungs text) : ∀ l ∈ r, RungLineInv l := by
  apply splitRungsGo_line_inv (splitlines text) [] (by simp)
    (fun raw hraw => mem_splitlines_no_newline text raw hraw) r hr

lemma splitRungsGo_all_content : ∀ (R : List Str) (current : List Str),
    (∀ l ∈ R, pyStrip l = l ∧ l ≠ [] ∧ isBoundaryLine l = false) →
    splitRungsGo current R = if current ++ R = [] then [] else [current ++ R] := by
  intro R
  induction R with
  | nil =>
    intro current _
    rw [List.append_nil]
    rfl
  | cons l ls ih =>
    intro current h
    have hl := h l (List.mem_cons_self l ls)
    have hcont : isContentLine l := by
      constructor
      · rw [hl.1]; exact hl.2.1
      · rw [hl.1]; exact hl.2.2
    rw [splitRungsGo_content_cons hcont, hl.1,
      ih (current ++ [l]) (fun x hx => h x (List.mem_cons_of_mem l hx))]
    have hne : current ++ l :: ls ≠ [] := by simp
    have hne2 : current ++ [l] ++ ls ≠ [] := by simp
    rw [if_neg hne2, if_neg hne]
    simp

/-- C7: every rung the segmenter emits round-trips: re-segmenting a boundary
marker line followed by the newline-joined lines of the rung yields exactly
that single rung. -/
theorem C7_theorem : ∀ (text : Str) (r : List Str) (m : Str),
    r ∈ split_rungs text → '\n' ∉ m → isBoundaryLine (pyStrip m) = true →
    split_rungs (m ++ '\n' :: joinWith "\n".data r) = [r] := by
  intro text r m hr hm hbm
  have inv := split_rungs_line_inv hr
  have hne : r ≠ [] := splitRungsGo_ne_nil (splitlines text) [] r hr
  have hnc : ¬ isContentLine m := by
    intro hc
    rw [hc.2] at hbm
    exact Bool.false_ne_true hbm
  unfold split_rungs
  rw [splitlines_append_newline m _ hm,
    splitlines_joinWith r hne (fun l hl => ⟨(inv l hl).2.2.2, (inv l hl).2.1⟩),
    splitRungsGo_noncontent_cons hnc, if_pos rfl,
    splitRungsGo_all_content r []
      (fun l hl => ⟨(inv l hl).1, (inv l hl).2.1, (inv l hl).2.2.1⟩)]
  simp [hne]

/-- Witness for C7: the single rung of the document `"LD X0"` round-trips
through a `"Rung 9"` boundary marker. -/
theorem C7_witness :
    split_rungs ("Rung 9".data ++ '\n' :: joinWith "\n".data ["LD X0".data]) =
      [["LD X0".data]] :=
  C7_theorem "LD X0".data ["LD X0".data] "Rung 9".data (by decide) (by decide)
    (by decide)

lemma blocksGo_length : ∀ (rs : List (List Str)) (i : Nat),
    (blocksGo i rs).length = rs.length := by
  intro rs
  induction rs with
  | nil => intro i; rfl
  | cons x xs ih =>
    intro i
    show (blocksGo (i + 1) xs).length + 1 = xs.length + 1
    rw [ih (i + 1)]

lemma blocksGo_getElem : ∀ (rs : List (List Str)) (i j : Nat) (r : List Str),
    rs[j]? = some r → (blocksGo i rs)[j]? = some (rung_to_st r (i + j)) := by
  intro rs
  induction rs with
  | nil => intro i j r h; simp at h
  | cons x xs ih =>
    intro i j r h
    have e : blocksGo i (x :: xs) = rung_to_st x i :: blocksGo (i + 1) xs := rfl
    cases j with
    | zero =>
      rw [List.getElem?_cons_zero] at h
      injection h with h1
      subst h1
      rw [e, List.getElem?_cons_zero, Nat.add_zero]
    | succ j =>
      rw [List.getElem?_cons_succ] at h
      have h2 := ih (i + 1) j r h
      rw [e, List.getElem?_cons_succ, h2,
        show i + 1 + j = i + (j + 1) from by omega]

/-- C8: the translation engine is total and fail-soft: on every input it
produces the joined output text, and every rung — malformed or not — yields
exactly one ST block, so no rung aborts translation of the rest: the number of
blocks equals the number of rungs and the j-th block is the translation of the
j-th rung. -/
theorem C8_theorem : ∀ text : Str,
    convert_text_to_st text =
      joinWith "\n".data (convertGo 1 (split_rungs text)) ∧
    (st_blocks text).length = (split_rungs text).length ∧
    (∀ (j : Nat) (r : List Str), (split_rungs text)[j]? = some r →
       (st_blocks text)[j]? = some (rung_to_st r (j + 1))) := by
  intro text
  refine ⟨rfl, blocksGo_length (split_rungs text) 1, ?_⟩
  intro j r h
  rw [show j + 1 = 1 + j from by omega]
  exact blocksGo_getElem (split_rungs text) 1 j r h

/-- Witness for C8: in a document whose first rung is malformed (no coil), the
second rung is still translated to its own block. -/
theorem C8_witness :
    (st_blocks "LD X0\nRung 2\nLD X1\nOUT Y0".data)[1]? =
      some (rung_to_st ["LD X1".data, "OUT Y0".data] 2) :=
  ( C8_theorem "LD X0\nRung 2\nLD X1\nOUT Y0".data).2.2 1
    ["LD X1".data, "OUT Y0".data] (by decide)
